import Mathlib

/-!
Shallow embedding of `lib/compress/zstd_preSplit.c`, the content-shift
detector used to choose split points inside a 128 KiB block before
compression.

Bytes of the input block are modelled as a function `Nat → Nat` (the value
of the byte at each index).  The `FPStats` scratch structure is modelled as
a pure value that is threaded through the scan loop; `initStats` zeroes it
exactly as the C `ZSTD_memset` does, ignoring its prior contents.  The
machine integers involved never overflow in any state reachable by the
driver (counts are bounded by the number of samples in a 128 KiB block,
and all products fit comfortably in 64 bits), so counts and distances are
modelled as `Nat` and the signed `penalty` as `Int`.
-/

set_option maxRecDepth 400000

namespace ZstdPreSplit

/-- `CHUNKSIZE` (`8 << 10`): granularity of the block scan. -/
def CHUNKSIZE : Nat := 8192

/-- `THRESHOLD_PENALTY_RATE`. -/
def THRESHOLD_PENALTY_RATE : Nat := 16

/-- `THRESHOLD_BASE` = `THRESHOLD_PENALTY_RATE - 2`. -/
def THRESHOLD_BASE : Nat := THRESHOLD_PENALTY_RATE - 2

/-- `THRESHOLD_PENALTY`: the initial penalty of a scan (C `int`). -/
def THRESHOLD_PENALTY : Int := 3

/-- `KNUTH`: golden-ratio multiplicative hashing constant `0x9e3779b9`. -/
def KNUTH : Nat := 0x9e3779b9

/-- `HASHLOG_MAX`. -/
def HASHLOG_MAAX : Nat := 10

/-- `HASHTABLESIZE` = `1 << HASHLOG_MAX`. -/
def HASHTABLESIZE : Nat := 1024

/-- `hash2`: `(U32)(MEM_read16(p)) * KNUTH >> (32 - hashLog)`.
`MEM_read16` reads two bytes little-endian; the `U32` product wraps
modulo `2^32`, and the shift keeps the top `hashLog` bits. -/
def hash2 (b0 b1 : Nat) (hashLog : Nat) : Nat :=
  (b0 + 256 * b1) * KNUTH % 2 ^ 32 / 2 ^ (32 - hashLog)

/-- `Fingerprint`: an array of `HASHTABLESIZE` event counters (only indices
below `HASHTABLESIZE` are ever read or written) plus `nbEvents`. -/
structure Fingerprint where
  events : Nat → Nat
  nbEvents : Nat

/-- `FPStats`: the scratch state of one scan. -/
structure FPStats where
  pastEvents : Fingerprint
  newEvents : Fingerprint

/-- An all-zero fingerprint. -/
def zeroFingerprint : Fingerprint := ⟨fun _ => 0, 0⟩

/-- `initStats`: `ZSTD_memset(fpstats, 0, sizeof(FPStats))` — the result
does not depend on the prior contents of the workspace. -/
def initStats (_fpstats : FPStats) : FPStats := ⟨zeroFingerprint, zeroFingerprint⟩

/-- Offsets visited by the sampling loop
`for (n = 0; n < limit; n += samplingRate)`: all `k * rate < limit`. -/
def samplePositions (limit rate : Nat) : List Nat :=
  (List.range ((limit + rate - 1) / rate)).map (fun k => k * rate)

/-- `addEvents_generic`: hash the 2-byte window at every `rate`-th offset
below `limit = srcSize - HASHLENGTH + 1`, incrementing that bucket, then
add `limit / samplingRate` to `nbEvents`.  (The C asserts
`srcSize >= HASHLENGTH`, under which `limit` is `srcSize - 1`.) -/
def addEvents (fp : Fingerprint) (src : Nat → Nat) (srcSize rate hashLog : Nat) : Fingerprint :=
  let limit := srcSize - 1
  let h : Nat → Nat := fun n => hash2 (src n) (src (n + 1)) hashLog
  { events := (samplePositions limit rate).foldl
      (fun ev n => Function.update ev (h n) (ev (h n) + 1)) fp.events,
    nbEvents := fp.nbEvents + limit / rate }

/-- `recordFingerprint_generic`: zero the first `1 << hashLog` counters and
`nbEvents` (the memset covers only `sizeof(unsigned) * (1 << hashLog)`
bytes), then add the events of the range. -/
def recordFingerprint (fp : Fingerprint) (src : Nat → Nat) (srcSize rate hashLog : Nat) :
    Fingerprint :=
  addEvents ⟨fun b => if b < 2 ^ hashLog then 0 else fp.events b, 0⟩ src srcSize rate hashLog

/-- `fpDistance`: cross-normalized L1 distance between two fingerprints,
`Σ_n |fp1.events[n] * fp2.nbEvents - fp2.events[n] * fp1.nbEvents|`. -/
def fpDistance (fp1 fp2 : Fingerprint) (hashLog : Nat) : Nat :=
  ∑ n ∈ Finset.range (2 ^ hashLog),
    ((fp1.events n : Int) * (fp2.nbEvents : Int)
      - (fp2.events n : Int) * (fp1.nbEvents : Int)).natAbs

/-- `compareFingerprints`: `1` ("too different") when the distance reaches
`ref.nbEvents * newfp.nbEvents * (THRESHOLD_BASE + penalty) / 16`.
The C casts `THRESHOLD_BASE + penalty` to `U64`; the driver only ever
passes penalties in `[0, 3]`, where that cast agrees with `Int.toNat`. -/
def compareFingerprints (ref newfp : Fingerprint) (penalty : Int) (hashLog : Nat) : Bool :=
  let p50 : Nat := ref.nbEvents * newfp.nbEvents
  let deviation : Nat := fpDistance ref newfp hashLog
  let threshold : Nat := p50 * ((THRESHOLD_BASE : Int) + penalty).toNat / THRESHOLD_PENALTY_RATE
  decide (threshold ≤ deviation)

/-- `mergeEvents`: bucket-wise accumulation of `newfp` into `acc`
(the C loop runs over all `HASHTABLESIZE` entries). -/
def mergeEvents (acc newfp : Fingerprint) : Fingerprint :=
  { events := fun n => if n < HASHTABLESIZE then acc.events n + newfp.events n else acc.events n,
    nbEvents := acc.nbEvents + newfp.nbEvents }

/-- `ZSTD_SplitBlock_strategy_e`. -/
inductive Strategy where
  | split_lvl1
  | split_lvl2
  | split_lvl3
deriving DecidableEq

/-- Sampling rate selected by `records_fs[splitStrat]`
(`FP_RECORD(11)`, `FP_RECORD(5)`, `FP_RECORD(1)`). -/
def samplingRate : Strategy → Nat
  | .split_lvl1 => 11
  | .split_lvl2 => 5
  | .split_lvl3 => 1

/-- `hashParams[splitStrat]` = `{ 9, 10, 10 }`. -/
def hashParams : Strategy → Nat
  | .split_lvl1 => 9
  | .split_lvl2 => 10
  | .split_lvl3 => 10

/-- The scan loop of `ZSTD_splitBlock_byChunks`, iterated over the list of
chunk start positions.  Each step records the chunk at `pos` into
`newEvents`, compares against `pastEvents`, and either returns `pos`
("too different") or merges and continues with a decremented penalty. -/
def scanLoop (block : Nat → Nat) (blockSize rate hashLog : Nat) :
    List Nat → Int → FPStats → Nat
  | [], _, _ => blockSize
  | pos :: rest, penalty, fpstats =>
    let newEv := recordFingerprint fpstats.newEvents (fun i => block (pos + i))
      CHUNKSIZE rate hashLog
    if compareFingerprints fpstats.pastEvents newEv penalty hashLog then pos
    else scanLoop block blockSize rate hashLog rest
      (if penalty > 0 then penalty - 1 else penalty)
      ⟨mergeEvents fpstats.pastEvents newEv, newEv⟩

/-- Chunk start positions of the loop
`for (pos = CHUNKSIZE; pos <= blockSize - CHUNKSIZE; pos += CHUNKSIZE)`. -/
def chunkPositions (blockSize : Nat) : List Nat :=
  (List.range ((blockSize - CHUNKSIZE) / CHUNKSIZE)).map (fun i => (i + 1) * CHUNKSIZE)

/-- `ZSTD_splitBlock_byChunks`: zero the workspace, seed `pastEvents` with
the fingerprint of the first chunk, then scan the remaining chunks. -/
def ZSTD_splitBlock_byChunks (block : Nat → Nat) (blockSize : Nat) (splitStrat : Strategy)
    (workspace : FPStats) : Nat :=
  let rate := samplingRate splitStrat
  let hashLog := hashParams splitStrat
  let fpstats := initStats workspace
  let past := recordFingerprint fpstats.pastEvents block CHUNKSIZE rate hashLog
  scanLoop block blockSize rate hashLog (chunkPositions blockSize) THRESHOLD_PENALTY
    ⟨past, fpstats.newEvents⟩

/-- `ZSTD_splitBlock`: public entry point. -/
def ZSTD_splitBlock (block : Nat → Nat) (blockSize : Nat) (splitStrat : Strategy)
    (workspace : FPStats) : Nat :=
  ZSTD_splitBlock_byChunks block blockSize splitStrat workspace

/-- Ghost observation of the scan: the penalty value handed to
`compareFingerprints` at each comparison actually performed, in order.
It mirrors `scanLoop` step for step. -/
def scanPenalties (block : Nat → Nat) (rate hashLog : Nat) :
    List Nat → Int → FPStats → List Int
  | [], _, _ => []
  | pos :: rest, penalty, fpstats =>
    let newEv := recordFingerprint fpstats.newEvents (fun i => block (pos + i))
      CHUNKSIZE rate hashLog
    if compareFingerprints fpstats.pastEvents newEv penalty hashLog then [penalty]
    else penalty :: scanPenalties block rate hashLog rest
      (if penalty > 0 then penalty - 1 else penalty)
      ⟨mergeEvents fpstats.pastEvents newEv, newEv⟩

/-- Penalties used by one full call of `ZSTD_splitBlock`, in order. -/
def splitBlockPenalties (block : Nat → Nat) (blockSize : Nat) (splitStrat : Strategy)
    (workspace : FPStats) : List Int :=
  let rate := samplingRate splitStrat
  let hashLog := hashParams splitStrat
  let fpstats := initStats workspace
  let past := recordFingerprint fpstats.pastEvents block CHUNKSIZE rate hashLog
  scanPenalties block rate hashLog (chunkPositions blockSize) THRESHOLD_PENALTY
    ⟨past, fpstats.newEvents⟩

/-- Sum of all bucket counters of a fingerprint. -/
def sumCounts (fp : Fingerprint) : Nat :=
  ∑ b ∈ Finset.range HASHTABLESIZE, fp.events b

/-- Test block for the counterexamples: first chunk all zero, every later
chunk carries the byte `1` exactly at in-chunk offsets divisible by 11
(the `split_lvl1` sampling stride) and `0` elsewhere. -/
def patternBlock : Nat → Nat :=
  fun i => if i < CHUNKSIZE then 0 else if i % CHUNKSIZE % 11 = 0 then 1 else 0

/-! ### Basic lemmas about the hash and the sampling loop -/

theorem hash2_lt (b0 b1 hashLog : Nat) (h : hashLog ≤ 32) :
    hash2 b0 b1 hashLog < 2 ^ hashLog := by
  have hpow : (0:Nat) < 2 ^ (32 - hashLog) := Nat.pos_pow_of_pos _ (by omega)
  rw [hash2, Nat.div_lt_iff_lt_mul hpow]
  calc (b0 + 256 * b1) * KNUTH % 2 ^ 32 < 2 ^ 32 := Nat.mod_lt _ (by norm_num)
    _ = 2 ^ hashLog * 2 ^ (32 - hashLog) := by
        rw [← pow_add]
        congr 1
        omega

theorem length_samplePositions (limit rate : Nat) :
    (samplePositions limit rate).length = (limit + rate - 1) / rate := by
  simp [samplePositions]

theorem lt_of_mem_samplePositions {limit rate n : Nat} (hr : 0 < rate)
    (hn : n ∈ samplePositions limit rate) : n < limit := by
  simp only [samplePositions, List.mem_map, List.mem_range] at hn
  obtain ⟨k, hk, rfl⟩ := hn
  rcases Nat.eq_zero_or_pos limit with h0 | h0
  · subst h0
    rw [Nat.div_eq_of_lt (by omega)] at hk
    exact absurd hk (Nat.not_lt_zero k)
  · have h2 : (k + 1) * rate ≤ limit + rate - 1 := (Nat.le_div_iff_mul_le hr).mp hk
    have h3 : (k + 1) * rate = k * rate + rate := by ring
    rw [h3] at h2
    omega

theorem rate_dvd_of_mem_samplePositions {limit rate n : Nat}
    (hn : n ∈ samplePositions limit rate) : rate ∣ n := by
  simp only [samplePositions, List.mem_map, List.mem_range] at hn
  obtain ⟨k, _, rfl⟩ := hn
  exact Dvd.intro_left k rfl

/-! ### The bucket counters after a recording pass -/

theorem foldl_update_apply (f : Nat → Nat) (L : List Nat) (ev : Nat → Nat) (x : Nat) :
    (L.foldl (fun ev n => Function.update ev (f n) (ev (f n) + 1)) ev) x
      = ev x + L.countP (fun n => f n == x) := by
  induction L generalizing ev with
  | nil => simp
  | cons a L ih =>
    simp only [List.foldl_cons, List.countP_cons, ih]
    rcases eq_or_ne (f a) x with h | h
    · subst h
      simp only [Function.update_same, beq_self_eq_true, if_pos]
      omega
    · simp only [Function.update_apply, if_neg (Ne.symm h), beq_iff_eq, if_neg h]
      omega

theorem addEvents_events (fp : Fingerprint) (src : Nat → Nat) (srcSize rate hashLog x : Nat) :
    (addEvents fp src srcSize rate hashLog).events x
      = fp.events x + (samplePositions (srcSize - 1) rate).countP
          (fun n => hash2 (src n) (src (n + 1)) hashLog == x) := by
  simp only [addEvents]
  exact foldl_update_apply _ _ _ _

theorem addEvents_nbEvents (fp : Fingerprint) (src : Nat → Nat) (srcSize rate hashLog : Nat) :
    (addEvents fp src srcSize rate hashLog).nbEvents = fp.nbEvents + (srcSize - 1) / rate := rfl

theorem recordFingerprint_events (fp : Fingerprint) (src : Nat → Nat) (srcSize rate hashLog x : Nat)
    (hfp : ∀ y, 2 ^ hashLog ≤ y → fp.events y = 0) :
    (recordFingerprint fp src srcSize rate hashLog).events x
      = (samplePositions (srcSize - 1) rate).countP
          (fun n => hash2 (src n) (src (n + 1)) hashLog == x) := by
  rw [recordFingerprint, addEvents_events]
  have hproj : (⟨fun b => if b < 2 ^ hashLog then 0 else fp.events b, 0⟩ : Fingerprint).events x
      = if x < 2 ^ hashLog then 0 else fp.events x := rfl
  rw [hproj]
  rcases lt_or_le x (2 ^ hashLog) with h | h
  · rw [if_pos h, Nat.zero_add]
  · rw [if_neg (by omega), hfp x h, Nat.zero_add]

theorem recordFingerprint_nbEvents (fp : Fingerprint) (src : Nat → Nat)
    (srcSize rate hashLog : Nat) :
    (recordFingerprint fp src srcSize rate hashLog).nbEvents = (srcSize - 1) / rate := by
  simp [recordFingerprint, addEvents]

theorem countP_eq_of_const {L : List Nat} {f : Nat → Nat} {h0 : Nat}
    (H : ∀ n ∈ L, f n = h0) (x : Nat) :
    L.countP (fun n => f n == x) = if h0 = x then L.length else 0 := by
  induction L with
  | nil => simp
  | cons a L ih =>
    have ha := H a (List.mem_cons_self a L)
    rw [List.countP_cons, ih (fun n hn => H n (List.mem_cons_of_mem a hn))]
    simp only [ha, beq_iff_eq, List.length_cons]
    split <;> simp_all

theorem sum_countP_eq_length (L : List Nat) (f : Nat → Nat) (M : Nat)
    (hf : ∀ n ∈ L, f n < M) :
    (∑ x ∈ Finset.range M, L.countP (fun n => f n == x)) = L.length := by
  induction L with
  | nil => simp
  | cons a L ih =>
    simp only [List.countP_cons, List.length_cons]
    rw [Finset.sum_add_distrib, ih (fun n hn => hf n (List.mem_cons_of_mem a hn))]
    have ha : f a ∈ Finset.range M := Finset.mem_range.mpr (hf a (List.mem_cons_self a L))
    have hs : (∑ x ∈ Finset.range M, if f a == x then 1 else 0) = 1 := by
      simp only [beq_iff_eq]
      rw [Finset.sum_ite_eq (Finset.range M) (f a) (fun _ => 1), if_pos ha]
    omega

/-! ### Distance and comparison lemmas -/

theorem fpDistance_eq_of (fp1 fp2 : Fingerprint) (A B : Nat → Nat) (Na Nb hashLog : Nat)
    (h1 : ∀ x, fp1.events x = A x) (h2 : ∀ x, fp2.events x = B x)
    (hn1 : fp1.nbEvents = Na) (hn2 : fp2.nbEvents = Nb) :
    fpDistance fp1 fp2 hashLog = fpDistance ⟨A, Na⟩ ⟨B, Nb⟩ hashLog := by
  simp only [fpDistance, h1, h2, hn1, hn2]

theorem fpDistance_shift (A B : Nat → Nat) (Na Nb k hashLog : Nat) :
    fpDistance ⟨fun x => A x + k * B x, Na + k * Nb⟩ ⟨B, Nb⟩ hashLog
      = fpDistance ⟨A, Na⟩ ⟨B, Nb⟩ hashLog := by
  unfold fpDistance
  apply Finset.sum_congr rfl
  intro x _
  congr 1
  push_cast
  ring

theorem fpDistance_self_shape (A : Nat → Nat) (Na hashLog : Nat) :
    fpDistance ⟨A, Na⟩ ⟨A, Na⟩ hashLog = 0 := by
  unfold fpDistance
  apply Finset.sum_eq_zero
  intro x _
  simp [sub_self]

theorem compareFingerprints_eq_false_iff (ref newfp : Fingerprint) (pen : Int) (hashLog : Nat) :
    compareFingerprints ref newfp pen hashLog = false ↔
      fpDistance ref newfp hashLog
        < ref.nbEvents * newfp.nbEvents * ((THRESHOLD_BASE : Int) + pen).toNat
            / THRESHOLD_PENALTY_RATE := by
  simp [compareFingerprints]

theorem compareFingerprints_eq_of (fp1 fp2 : Fingerprint) (A B : Nat → Nat)
    (Na Nb : Nat) (pen : Int) (hashLog : Nat)
    (h1 : ∀ x, fp1.events x = A x) (h2 : ∀ x, fp2.events x = B x)
    (hn1 : fp1.nbEvents = Na) (hn2 : fp2.nbEvents = Nb) :
    compareFingerprints fp1 fp2 pen hashLog
      = compareFingerprints ⟨A, Na⟩ ⟨B, Nb⟩ pen hashLog := by
  simp only [compareFingerprints, hn1, hn2,
    fpDistance_eq_of fp1 fp2 A B Na Nb hashLog h1 h2 hn1 hn2]

/-! ### Residue counting over `List.range`, for the pattern block -/

theorem countP_range_mod11 (s : Nat) (hs : s < 11) (N : Nat) :
    (List.range N).countP (fun n => n % 11 == s) = (N + 10 - s) / 11 := by
  induction N with
  | zero => simp only [List.range_zero, List.countP_nil, Nat.zero_add]; omega
  | succ N ih =>
    rw [List.range_succ, List.countP_append, ih]
    by_cases h : N % 11 = s
    · simp [h]
      omega
    · simp [h]
      omega

theorem countP_range_mod11_other (N : Nat) :
    (List.range N).countP (fun n => !(n % 11 == 0) && !(n % 11 == 10))
      = N - (N + 10) / 11 - N / 11 := by
  induction N with
  | zero => simp
  | succ N ih =>
    rw [List.range_succ, List.countP_append, ih]
    by_cases h0 : N % 11 = 0
    · simp [h0]
      omega
    · by_cases h10 : N % 11 = 10
      · simp [h10]
        omega
      · simp [h0, h10]
        omega

/-! ### Generic facts about the scan loop -/

theorem scanLoop_result (block : Nat → Nat) (blockSize rate hashLog : Nat) :
    ∀ (ps : List Nat) (pen : Int) (st : FPStats),
      scanLoop block blockSize rate hashLog ps pen st = blockSize ∨
        scanLoop block blockSize rate hashLog ps pen st ∈ ps := by
  intro ps
  induction ps with
  | nil => intro pen st; left; rfl
  | cons pos rest ih =>
    intro pen st
    rw [scanLoop]
    split
    · right; exact List.mem_cons_self _ _
    · rcases ih _ _ with h | h
      · left; exact h
      · right; exact List.mem_cons_of_mem _ h

theorem scanPenalties_map_range (block : Nat → Nat) (rate hashLog : Nat) :
    ∀ (ps : List Nat) (pen : Int) (st : FPStats), 0 ≤ pen →
      scanPenalties block rate hashLog ps pen st
        = (List.range (scanPenalties block rate hashLog ps pen st).length).map
            (fun i : Nat => max (pen - (i : Int)) 0) := by
  intro ps
  induction ps with
  | nil => intro pen st _; rfl
  | cons pos rest ih =>
    intro pen st hpen
    rw [scanPenalties]
    set newEv := recordFingerprint st.newEvents (fun i => block (pos + i)) CHUNKSIZE rate hashLog
      with hnewEv
    split
    · have h1 : List.range 1 = [0] := rfl
      simp only [List.length_cons, List.length_nil, Nat.zero_add, h1, List.map_cons,
        List.map_nil, Nat.cast_zero, sub_zero]
      rw [max_eq_left hpen]
    · have hpen'0 : 0 ≤ (if pen > 0 then pen - 1 else pen) := by split <;> omega
      have hT := ih (if pen > 0 then pen - 1 else pen)
        ⟨mergeEvents st.pastEvents newEv, newEv⟩ hpen'0
      rw [List.length_cons, List.range_succ_eq_map, List.map_cons, List.map_map]
      have hhead : max (pen - ((0:Nat) : Int)) 0 = pen := by
        rw [Nat.cast_zero, sub_zero]
        exact max_eq_left hpen
      rw [hhead]
      congr 1
      conv_lhs => rw [hT]
      congr 1
      funext i
      show max ((if pen > 0 then pen - 1 else pen) - (i : Int)) 0
        = max (pen - ((Nat.succ i : Nat) : Int)) 0
      have hcast : ((Nat.succ i : Nat) : Int) = (i : Int) + 1 := by push_cast; ring
      rw [hcast, max_def, max_def]
      split_ifs <;> omega

/-- Invariant lemma: if every chunk scanned at a position of `ps` records the
same fingerprint `⟨Bev, Nb⟩`, the reference starts as `⟨Aev, Na⟩` plus `k`
merged copies of `⟨Bev, Nb⟩`, and the base distance between `⟨Aev, Na⟩` and
`⟨Bev, Nb⟩` is below the floor threshold `Na * Nb * THRESHOLD_BASE / 16`,
then the scan never splits.  The key algebraic fact is that the
cross-normalized distance between `A + k·B` and `B` is independent of `k`,
while the threshold only grows as evidence accumulates. -/
theorem scanLoop_noSplit (block : Nat → Nat) (blockSize rate hashLog : Nat)
    (Aev Bev : Nat → Nat) (Na Nb : Nat)
    (hL : hashLog ≤ 10)
    (hNb : Nb = (CHUNKSIZE - 1) / rate)
    (HBsupp : ∀ x, 2 ^ hashLog ≤ x → Bev x = 0)
    (HD : fpDistance ⟨Aev, Na⟩ ⟨Bev, Nb⟩ hashLog
            < Na * Nb * THRESHOLD_BASE / THRESHOLD_PENALTY_RATE) :
    ∀ (ps : List Nat),
      (∀ pos ∈ ps, ∀ x,
        (samplePositions (CHUNKSIZE - 1) rate).countP
          (fun n => hash2 (block (pos + n)) (block (pos + n + 1)) hashLog == x) = Bev x) →
      ∀ (k : Nat) (pen : Int) (st : FPStats), 0 ≤ pen →
        (∀ x, st.pastEvents.events x = Aev x + k * Bev x) →
        st.pastEvents.nbEvents = Na + k * Nb →
        (∀ x, 2 ^ hashLog ≤ x → st.newEvents.events x = 0) →
        scanLoop block blockSize rate hashLog ps pen st = blockSize := by
  intro ps
  induction ps with
  | nil => intro _ k pen st _ _ _ _; rfl
  | cons pos rest ih =>
    intro Hrec k pen st hpen Hpast HpastN Hnew
    rw [scanLoop]
    set newEv := recordFingerprint st.newEvents (fun i => block (pos + i)) CHUNKSIZE rate hashLog
      with hnewEv
    have hnewE : ∀ x, newEv.events x = Bev x := by
      intro x
      rw [hnewEv, recordFingerprint_events _ _ _ _ _ _ Hnew]
      exact Hrec pos (List.mem_cons_self _ _) x
    have hnewN : newEv.nbEvents = Nb := by
      rw [hnewEv, recordFingerprint_nbEvents, hNb]
    have hdist : fpDistance st.pastEvents newEv hashLog
        = fpDistance ⟨Aev, Na⟩ ⟨Bev, Nb⟩ hashLog := by
      rw [fpDistance_eq_of st.pastEvents newEv (fun x => Aev x + k * Bev x) Bev
        (Na + k * Nb) Nb hashLog Hpast hnewE HpastN hnewN]
      exact fpDistance_shift Aev Bev Na Nb k hashLog
    have hmono : Na * Nb * THRESHOLD_BASE
        ≤ (Na + k * Nb) * Nb * ((THRESHOLD_BASE : Int) + pen).toNat := by
      have h1 : Na ≤ Na + k * Nb := Nat.le_add_right _ _
      have h2 : THRESHOLD_BASE ≤ ((THRESHOLD_BASE : Int) + pen).toNat := by
        have : THRESHOLD_BASE = 14 := rfl
        omega
      exact Nat.mul_le_mul (Nat.mul_le_mul_right _ h1) h2
    have hcmp : compareFingerprints st.pastEvents newEv pen hashLog = false := by
      rw [compareFingerprints_eq_false_iff, hdist, HpastN, hnewN]
      calc fpDistance ⟨Aev, Na⟩ ⟨Bev, Nb⟩ hashLog
          < Na * Nb * THRESHOLD_BASE / THRESHOLD_PENALTY_RATE := HD
        _ ≤ (Na + k * Nb) * Nb * ((THRESHOLD_BASE : Int) + pen).toNat
              / THRESHOLD_PENALTY_RATE := Nat.div_le_div_right hmono
    rw [hcmp]
    simp only [Bool.false_eq_true, if_false]
    have hpow : 2 ^ hashLog ≤ HASHTABLESIZE := by
      have : HASHTABLESIZE = 2 ^ 10 := rfl
      rw [this]
      exact Nat.pow_le_pow_right (by norm_num) hL
    apply ih (fun p hp x => Hrec p (List.mem_cons_of_mem _ hp) x) (k + 1)
    · split <;> omega
    · intro x
      show (if x < HASHTABLESIZE then st.pastEvents.events x + newEv.events x
          else st.pastEvents.events x) = Aev x + (k + 1) * Bev x
      rcases lt_or_le x HASHTABLESIZE with hx | hx
      · rw [if_pos hx, Hpast, hnewE]
        ring
      · rw [if_neg (by omega), Hpast, HBsupp x (le_trans hpow hx)]
        ring
    · show st.pastEvents.nbEvents + newEv.nbEvents = Na + (k + 1) * Nb
      rw [HpastN, hnewN]
      ring
    · intro x hx
      rw [hnewE, HBsupp x hx]

theorem chunkPositions_131072 :
    chunkPositions 131072 = (List.range 15).map (fun i => (i + 1) * CHUNKSIZE) := by
  decide

theorem mem_chunkPositions_131072 {r : Nat} (h : r ∈ chunkPositions 131072) :
    ∃ i, i < 15 ∧ r = (i + 1) * CHUNKSIZE := by
  rw [chunkPositions_131072] at h
  simp only [List.mem_map, List.mem_range] at h
  obtain ⟨i, hi, hr⟩ := h
  exact ⟨i, hi, hr.symm⟩

/-- The public entry point, unfolded to its scan loop. -/
theorem ZSTD_splitBlock_eq (block : Nat → Nat) (blockSize : Nat) (strat : Strategy)
    (ws : FPStats) :
    ZSTD_splitBlock block blockSize strat ws
      = scanLoop block blockSize (samplingRate strat) (hashParams strat)
          (chunkPositions blockSize) THRESHOLD_PENALTY
          ⟨recordFingerprint zeroFingerprint block CHUNKSIZE (samplingRate strat)
              (hashParams strat),
            zeroFingerprint⟩ := rfl

/-- Core of the uniform-content case: a constant block never splits, for any
strategy parameters with positive rate, `hashLog ≤ 10`, and enough samples
per chunk to make the threshold positive. -/
theorem splitBlock_uniform_core (b : Nat) (strat : Strategy) (ws : FPStats)
    (_hr : 0 < samplingRate strat) (hL : hashParams strat ≤ 10)
    (hm : THRESHOLD_PENALTY_RATE
      ≤ (CHUNKSIZE - 1) / samplingRate strat * ((CHUNKSIZE - 1) / samplingRate strat)
          * THRESHOLD_BASE) :
    ZSTD_splitBlock (fun _ => b) 131072 strat ws = 131072 := by
  set rate := samplingRate strat with hrate
  set L := hashParams strat with hLdef
  set m := (CHUNKSIZE - 1) / rate with hmdef
  set c := (CHUNKSIZE - 1 + rate - 1) / rate with hcdef
  set h0 := hash2 b b L with hh0
  have hh0lt : h0 < 2 ^ L := hash2_lt b b L (by omega)
  set Bev : Nat → Nat := fun x => if h0 = x then c else 0 with hBev
  have hBx : ∀ x, Bev x = if h0 = x then c else 0 := fun x => rfl
  rw [ZSTD_splitBlock_eq]
  apply scanLoop_noSplit (fun _ => b) 131072 rate L Bev Bev m m hL hmdef
    ?hsupp ?hd (chunkPositions 131072) ?hrec 0 THRESHOLD_PENALTY _ (by norm_num [THRESHOLD_PENALTY])
    ?hpast ?hpastN ?hnew
  case hsupp =>
    intro x hx
    rw [hBx]
    exact if_neg (by omega)
  case hd =>
    rw [fpDistance_self_shape]
    exact Nat.div_pos hm (by norm_num [THRESHOLD_PENALTY_RATE])
  case hrec =>
    intro pos _ x
    rw [countP_eq_of_const (fun n _ => rfl) x, length_samplePositions, hBx]
  case hpast =>
    intro x
    rw [recordFingerprint_events _ _ _ _ _ _ (fun y _ => rfl)]
    rw [countP_eq_of_const (fun n _ => rfl) x, length_samplePositions]
    simp only [← hLdef, ← hrate, ← hh0, ← hcdef, ← hmdef, hBx]
    omega
  case hpastN =>
    rw [recordFingerprint_nbEvents]
    simp only [← hrate, ← hmdef]
    omega
  case hnew =>
    intro x _
    rfl

/-- C5: a 128 KiB block consisting of a single repeated byte value is never
split: `ZSTD_splitBlock` returns `blockSize` for each of the three
strategies (`split_lvl1`, `split_lvl2`, `split_lvl3`).  (Proved for every
repeated value `b : Nat`, which covers every byte value.) -/
theorem splitBlock_uniform_noSplit (b : Nat) (strat : Strategy) (ws : FPStats) :
    ZSTD_splitBlock (fun _ => b) 131072 strat ws = 131072 := by
  apply splitBlock_uniform_core b strat ws ?_ ?_ ?_ <;> cases strat <;> decide

/-! ### The pattern block: byte `1` at every 11th in-chunk offset of every
chunk after the first.  At the `split_lvl1` sampling stride (11) every
sample of such a chunk reads the pair `(1, 0)`, while the full-rate
`split_lvl3` view sees only a small fraction of differing windows. -/

theorem patternBlock_chunk0 {j : Nat} (hj : j < CHUNKSIZE) : patternBlock j = 0 := by
  simp only [patternBlock]
  rw [if_pos hj]

theorem patternBlock_chunk (q j : Nat) (hq : 1 ≤ q) (hj : j < CHUNKSIZE) :
    patternBlock (q * CHUNKSIZE + j) = if j % 11 = 0 then 1 else 0 := by
  have hC : CHUNKSIZE = 8192 := rfl
  simp only [patternBlock, hC] at *
  rw [if_neg (by omega)]
  have hmod : (q * 8192 + j) % 8192 = j := by omega
  rw [hmod]

theorem hash_pattern_classify_10 (n : Nat) :
    hash2 (if n % 11 = 0 then 1 else 0) (if (n + 1) % 11 = 0 then 1 else 0) 10
      = if n % 11 = 0 then 632 else if n % 11 = 10 then 221 else 0 := by
  by_cases h0 : n % 11 = 0
  · rw [if_pos h0, if_neg (by omega), if_pos h0]
    decide
  · by_cases h10 : n % 11 = 10
    · rw [if_neg h0, if_pos (by omega), if_neg h0, if_pos h10]
      decide
    · rw [if_neg h0, if_neg (by omega), if_neg h0, if_neg h10]
      decide

/-- Bucket counters recorded by `split_lvl3` (rate 1, hashLog 10) over any
chunk of the pattern block other than the first: 745 windows `(1,0)` in
bucket 632, 744 windows `(0,1)` in bucket 221, and the remaining 6702
windows `(0,0)` in bucket 0. -/
theorem pattern_chunk_countP (pos q : Nat) (hq : 1 ≤ q) (hpos : pos = q * CHUNKSIZE) (x : Nat) :
    (samplePositions (CHUNKSIZE - 1) 1).countP
      (fun n => hash2 (patternBlock (pos + n)) (patternBlock (pos + n + 1)) 10 == x)
      = (if x = 632 then 745 else if x = 221 then 744 else if x = 0 then 6702 else 0) := by
  have hC : CHUNKSIZE = 8192 := rfl
  have hcong : ∀ n ∈ samplePositions (CHUNKSIZE - 1) 1,
      ((hash2 (patternBlock (pos + n)) (patternBlock (pos + n + 1)) 10 == x) = true
        ↔ ((if n % 11 = 0 then 632 else if n % 11 = 10 then 221 else 0) == x) = true) := by
    intro n hn
    have hlt : n < CHUNKSIZE - 1 := lt_of_mem_samplePositions (by norm_num) hn
    have hb1 : patternBlock (pos + n) = if n % 11 = 0 then 1 else 0 := by
      rw [hpos]
      exact patternBlock_chunk q n hq (by omega)
    have hb2 : patternBlock (pos + n + 1) = if (n + 1) % 11 = 0 then 1 else 0 := by
      rw [hpos, Nat.add_assoc]
      exact patternBlock_chunk q (n + 1) hq (by omega)
    rw [hb1, hb2, hash_pattern_classify_10 n]
  rw [List.countP_congr hcong]
  have hsp : samplePositions (CHUNKSIZE - 1) 1
      = (List.range (CHUNKSIZE - 1)).map (fun k => k * 1) := by
    rw [samplePositions]
    congr 1
  rw [hsp, List.countP_map]
  have hcong2 : ∀ k ∈ List.range (CHUNKSIZE - 1),
      ((((fun n => (if n % 11 = 0 then 632 else if n % 11 = 10 then 221 else 0) == x)
          ∘ (fun k => k * 1)) k) = true
        ↔ ((if k % 11 = 0 then 632 else if k % 11 = 10 then 221 else 0) == x) = true) := by
    intro k _
    simp [Nat.mul_one]
  rw [List.countP_congr hcong2]
  by_cases hx632 : x = 632
  · subst hx632
    have h : ∀ k ∈ List.range (CHUNKSIZE - 1),
        (((if k % 11 = 0 then 632 else if k % 11 = 10 then (221:Nat) else 0) == 632) = true
          ↔ (k % 11 == 0) = true) := by
      intro k _
      by_cases h0 : k % 11 = 0
      · simp [h0]
      · by_cases h10 : k % 11 = 10 <;> simp [h0, h10]
    rw [List.countP_congr h, countP_range_mod11 0 (by norm_num)]
    decide
  · by_cases hx221 : x = 221
    · subst hx221
      have h : ∀ k ∈ List.range (CHUNKSIZE - 1),
          (((if k % 11 = 0 then 632 else if k % 11 = 10 then (221:Nat) else 0) == 221) = true
            ↔ (k % 11 == 10) = true) := by
        intro k _
        by_cases h0 : k % 11 = 0
        · simp [h0]
        · by_cases h10 : k % 11 = 10 <;> simp [h0, h10]
      rw [List.countP_congr h, countP_range_mod11 10 (by norm_num)]
      simp [hx632]
      decide
    · by_cases hx0 : x = 0
      · subst hx0
        have h : ∀ k ∈ List.range (CHUNKSIZE - 1),
            (((if k % 11 = 0 then 632 else if k % 11 = 10 then (221:Nat) else 0) == 0) = true
              ↔ (!(k % 11 == 0) && !(k % 11 == 10)) = true) := by
          intro k _
          by_cases h0 : k % 11 = 0
          · simp [h0]
          · by_cases h10 : k % 11 = 10 <;> simp [h0, h10]
        rw [List.countP_congr h, countP_range_mod11_other]
        simp [hx632, hx221]
        decide
      · have h : (List.range (CHUNKSIZE - 1)).countP
            (fun k => (if k % 11 = 0 then 632 else if k % 11 = 10 then (221:Nat) else 0) == x)
            = 0 := by
          rw [List.countP_eq_zero]
          intro k _
          by_cases h0 : k % 11 = 0
          · simp [h0, beq_iff_eq]
            omega
          · by_cases h10 : k % 11 = 10 <;> simp [h0, h10, beq_iff_eq] <;> omega
        rw [h]
        simp [hx632, hx221, hx0]

theorem scanLoop_cons_of_split (block : Nat → Nat) (blockSize rate hashLog pos : Nat)
    (rest : List Nat) (pen : Int) (st : FPStats)
    (h : compareFingerprints st.pastEvents
        (recordFingerprint st.newEvents (fun i => block (pos + i)) CHUNKSIZE rate hashLog)
        pen hashLog = true) :
    scanLoop block blockSize rate hashLog (pos :: rest) pen st = pos := by
  rw [scanLoop, h]
  simp

/-- Fingerprint of the first (all-zero) chunk of `patternBlock` under any
`(rate, hashLog)` with `hashLog ≤ 32`: a single bucket `0`. -/
theorem pattern_chunk0_events (rate hashLog x : Nat) (hh : hash2 0 0 hashLog = 0) :
    (recordFingerprint zeroFingerprint patternBlock CHUNKSIZE rate hashLog).events x
      = if 0 = x then (CHUNKSIZE - 1 + rate - 1) / rate else 0 := by
  rw [recordFingerprint_events _ _ _ _ _ _ (fun y _ => rfl)]
  have hconst : ∀ n ∈ samplePositions (CHUNKSIZE - 1) rate,
      hash2 (patternBlock n) (patternBlock (n + 1)) hashLog = 0 := by
    intro n hn
    rcases Nat.eq_zero_or_pos rate with hr0 | hr0
    · subst hr0
      simp [samplePositions] at hn
    · have hlt : n < CHUNKSIZE - 1 := lt_of_mem_samplePositions hr0 hn
      have hC : CHUNKSIZE = 8192 := rfl
      rw [patternBlock_chunk0 (by omega), patternBlock_chunk0 (by omega), hh]
  rw [countP_eq_of_const hconst x, length_samplePositions]

/-- On the pattern block, `split_lvl1` (stride 11, hashLog 9) flags the very
first comparison: every sample of the second chunk reads the window `(1,0)`
(bucket 316) while the reference chunk is all in bucket 0, and
`2 · 745 · 744 ≥ 744 · 744 · 17 / 16`. -/
theorem splitBlock_pattern_lvl1 (ws : FPStats) :
    ZSTD_splitBlock patternBlock 131072 Strategy.split_lvl1 ws = 8192 := by
  have hcp : chunkPositions 131072
      = 8192 :: (List.range 14).map (fun i => (i + 2) * CHUNKSIZE) := by decide
  rw [ZSTD_splitBlock_eq, hcp]
  apply scanLoop_cons_of_split
  have hpastE : ∀ x,
      (recordFingerprint zeroFingerprint patternBlock CHUNKSIZE 11 9).events x
        = if 0 = x then 745 else 0 := by
    intro x
    rw [pattern_chunk0_events 11 9 x (by decide)]
    norm_num [CHUNKSIZE]
  have hpastN : (recordFingerprint zeroFingerprint patternBlock CHUNKSIZE 11 9).nbEvents
      = 744 := by
    rw [recordFingerprint_nbEvents]
    decide
  have hnewE : ∀ x,
      (recordFingerprint zeroFingerprint (fun i => patternBlock (8192 + i)) CHUNKSIZE 11 9).events x
        = if 316 = x then 745 else 0 := by
    intro x
    rw [recordFingerprint_events _ _ _ _ _ _ (fun y _ => rfl)]
    have hconst : ∀ n ∈ samplePositions (CHUNKSIZE - 1) 11,
        hash2 (patternBlock (8192 + n)) (patternBlock (8192 + (n + 1))) 9 = 316 := by
      intro n hn
      have hlt : n < CHUNKSIZE - 1 := lt_of_mem_samplePositions (by norm_num) hn
      have hdvd : (11 : Nat) ∣ n := rate_dvd_of_mem_samplePositions hn
      have hC : CHUNKSIZE = 8192 := rfl
      have hb1 : patternBlock (8192 + n) = 1 := by
        have h8 : (8192 : Nat) + n = 1 * CHUNKSIZE + n := by rw [hC]
        rw [h8, patternBlock_chunk 1 n le_rfl (by omega)]
        have hm : n % 11 = 0 := by omega
        rw [if_pos hm]
      have hb2 : patternBlock (8192 + (n + 1)) = 0 := by
        have h8 : (8192 : Nat) + (n + 1) = 1 * CHUNKSIZE + (n + 1) := by rw [hC]
        rw [h8, patternBlock_chunk 1 (n + 1) le_rfl (by omega)]
        have hm : ¬ (n + 1) % 11 = 0 := by omega
        rw [if_neg hm]
      rw [hb1, hb2]
      decide
    rw [countP_eq_of_const hconst x, length_samplePositions]
    norm_num [CHUNKSIZE]
  have hnewN :
      (recordFingerprint zeroFingerprint (fun i => patternBlock (8192 + i)) CHUNKSIZE 11 9).nbEvents
        = 744 := by
    rw [recordFingerprint_nbEvents]
    decide
  show compareFingerprints (recordFingerprint zeroFingerprint patternBlock CHUNKSIZE 11 9)
    (recordFingerprint zeroFingerprint (fun i => patternBlock (8192 + i)) CHUNKSIZE 11 9)
    THRESHOLD_PENALTY 9 = true
  rw [compareFingerprints_eq_of _ _ (fun x => if 0 = x then 745 else 0)
    (fun x => if 316 = x then 745 else 0) 744 744 THRESHOLD_PENALTY 9 hpastE hnewE hpastN hnewN]
  decide

/-- On the pattern block, `split_lvl3` (rate 1, hashLog 10) never splits:
every later chunk records the same fingerprint `B`, the distance between
the accumulated reference `A + k·B` and `B` stays at
`8191 * (1489 + 745 + 744) = 24392798`, below the floor threshold
`8191 * 8191 * 14 / 16 = 58705920`. -/
theorem splitBlock_pattern_lvl3 (ws : FPStats) :
    ZSTD_splitBlock patternBlock 131072 Strategy.split_lvl3 ws = 131072 := by
  rw [ZSTD_splitBlock_eq]
  apply scanLoop_noSplit patternBlock 131072 1 10
    (fun x => if 0 = x then 8191 else 0)
    (fun x => if x = 632 then 745 else if x = 221 then 744 else if x = 0 then 6702 else 0)
    8191 8191 (by norm_num) (by decide) ?hsupp ?hd (chunkPositions 131072) ?hrec
    0 THRESHOLD_PENALTY _ (by norm_num [THRESHOLD_PENALTY]) ?hpast ?hpastN ?hnew
  case hsupp =>
    intro x hx
    have h2 : (2 : Nat) ^ 10 = 1024 := by norm_num
    rw [h2] at hx
    show (if x = 632 then (745:Nat) else if x = 221 then 744 else if x = 0 then 6702 else 0) = 0
    split_ifs <;> omega
  case hd => decide
  case hrec =>
    intro pos hpos x
    obtain ⟨i, hi, hpose⟩ := mem_chunkPositions_131072 hpos
    exact pattern_chunk_countP pos (i + 1) (by omega) hpose x
  case hpast =>
    intro x
    show (recordFingerprint zeroFingerprint patternBlock CHUNKSIZE 1 10).events x
      = (if 0 = x then (8191:Nat) else 0)
        + 0 * (if x = 632 then (745:Nat) else if x = 221 then 744 else if x = 0 then 6702 else 0)
    rw [pattern_chunk0_events 1 10 x (by decide)]
    have hC : CHUNKSIZE = 8192 := rfl
    rw [hC]
    split_ifs <;> omega
  case hpastN =>
    show (recordFingerprint zeroFingerprint patternBlock CHUNKSIZE 1 10).nbEvents
      = 8191 + 0 * 8191
    rw [recordFingerprint_nbEvents]
    decide
  case hnew =>
    intro x _
    rfl

/-- `splitBlockPenalties`, unfolded to its scan. -/
theorem splitBlockPenalties_eq (block : Nat → Nat) (blockSize : Nat) (strat : Strategy)
    (ws : FPStats) :
    splitBlockPenalties block blockSize strat ws
      = scanPenalties block (samplingRate strat) (hashParams strat)
          (chunkPositions blockSize) THRESHOLD_PENALTY
          ⟨recordFingerprint zeroFingerprint block CHUNKSIZE (samplingRate strat)
              (hashParams strat),
            zeroFingerprint⟩ := rfl

/-! ### The claims -/

/-- C1: for every 128 KiB block, every strategy and every workspace, the
offset returned by `ZSTD_splitBlock` is an element of
`{CHUNKSIZE, 2·CHUNKSIZE, …, 15·CHUNKSIZE = blockSize − CHUNKSIZE} ∪
{blockSize}`: it is `blockSize` itself (no split) or `k * CHUNKSIZE` with
`1 ≤ k ≤ 15` — in particular always a multiple of `CHUNKSIZE`, never `0`,
and never an offset inside the first chunk. -/
theorem splitBlock_offset_range (block : Nat → Nat) (strat : Strategy) (ws : FPStats) :
    ZSTD_splitBlock block 131072 strat ws = 131072 ∨
      ∃ k, 1 ≤ k ∧ k ≤ 15 ∧ ZSTD_splitBlock block 131072 strat ws = k * CHUNKSIZE := by
  have h := scanLoop_result block 131072 (samplingRate strat) (hashParams strat)
    (chunkPositions 131072) THRESHOLD_PENALTY
    ⟨recordFingerprint zeroFingerprint block CHUNKSIZE (samplingRate strat) (hashParams strat),
      zeroFingerprint⟩
  rw [ZSTD_splitBlock_eq]
  rcases h with h | h
  · left
    exact h
  · right
    obtain ⟨i, hi, hr⟩ := mem_chunkPositions_131072 h
    exact ⟨i + 1, by omega, by omega, hr⟩

/-- C2: the comparator returns "too different" exactly when the
cross-normalized L1 distance `Σ_b |ref.count[b]·cand.total −
cand.count[b]·ref.total|` reaches the threshold
`ref.total * cand.total * (14 + penalty) / 16`, computed in exact integer
arithmetic with truncating division. -/
theorem compareFingerprints_spec (ref cand : Fingerprint) (penalty : Int) (hashLog : Nat)
    (_h1 : 0 < ref.nbEvents) (_h2 : 0 < cand.nbEvents) (_h3 : 0 ≤ penalty) :
    (compareFingerprints ref cand penalty hashLog = true ↔
      ref.nbEvents * cand.nbEvents * ((14 + penalty).toNat) / 16 ≤
        ∑ b ∈ Finset.range (2 ^ hashLog),
          ((ref.events b : Int) * (cand.nbEvents : Int)
            - (cand.events b : Int) * (ref.nbEvents : Int)).natAbs) := by
  have hTB : ((THRESHOLD_BASE : Nat) : Int) = 14 := rfl
  simp only [compareFingerprints, decide_eq_true_eq, fpDistance, hTB, THRESHOLD_PENALTY_RATE]

/-- C2 witness: concrete fingerprints with positive totals and penalty 1. -/
theorem compareFingerprints_spec_witness :
    0 < (⟨fun b => if b = 0 then 2 else 0, 2⟩ : Fingerprint).nbEvents ∧
    0 < (⟨fun b => if b = 1 then 3 else 0, 3⟩ : Fingerprint).nbEvents ∧
    (0 : Int) ≤ 1 ∧
    (compareFingerprints ⟨fun b => if b = 0 then 2 else 0, 2⟩
        ⟨fun b => if b = 1 then 3 else 0, 3⟩ 1 2 = true ↔
      (⟨fun b => if b = 0 then 2 else 0, 2⟩ : Fingerprint).nbEvents
          * (⟨fun b => if b = 1 then 3 else 0, 3⟩ : Fingerprint).nbEvents
          * ((14 + (1:Int)).toNat) / 16 ≤
        ∑ b ∈ Finset.range (2 ^ 2),
          (((⟨fun b => if b = 0 then 2 else 0, 2⟩ : Fingerprint).events b : Int)
              * ((⟨fun b => if b = 1 then 3 else 0, 3⟩ : Fingerprint).nbEvents : Int)
            - ((⟨fun b => if b = 1 then 3 else 0, 3⟩ : Fingerprint).events b : Int)
              * ((⟨fun b => if b = 0 then 2 else 0, 2⟩ : Fingerprint).nbEvents : Int)).natAbs) :=
  ⟨by decide, by decide, by decide,
    compareFingerprints_spec _ _ 1 2 (by decide) (by decide) (by decide)⟩

/-- C3 counterexample: recording 3 bytes at rate 5 (the `split_lvl2` rate)
performs one bucket increment (`ceil(2/5) = 1`) but sets
`totalSamples = floor(2/5) = 0`, so `totalSamples ≠ sum(counts)` after the
pass. -/
theorem record_sum_invariant_cx :
    (recordFingerprint zeroFingerprint (fun _ => 0) 3 5 10).nbEvents = 0 ∧
    sumCounts (recordFingerprint zeroFingerprint (fun _ => 0) 3 5 10) = 1 ∧
    (recordFingerprint zeroFingerprint (fun _ => 0) 3 5 10).nbEvents
      ≠ sumCounts (recordFingerprint zeroFingerprint (fun _ => 0) 3 5 10) := by
  refine ⟨by decide, by decide, by decide⟩

/-- C3 (amended): after a single recording pass from a zeroed fingerprint,
`totalSamples = ⌊(srcSize−1)/rate⌋` while the number of bucket increments
performed — the sum of all counts — is `⌈(srcSize−1)/rate⌉ =
⌊(srcSize−2)/rate⌋ + 1`; the invariant `totalSamples = sum(counts)` holds
iff `rate` divides `srcSize − 1` (hence always at rate 1, but not in
general at rates 5 and 11). -/
theorem record_totalSamples_vs_sumCounts (src : Nat → Nat) (srcSize rate hashLog : Nat)
    (hs : 2 ≤ srcSize) (hr : 1 ≤ rate) (hL : hashLog ≤ 10) :
    (recordFingerprint zeroFingerprint src srcSize rate hashLog).nbEvents
        = (srcSize - 1) / rate ∧
    sumCounts (recordFingerprint zeroFingerprint src srcSize rate hashLog)
        = (srcSize - 2) / rate + 1 ∧
    ((recordFingerprint zeroFingerprint src srcSize rate hashLog).nbEvents
        = sumCounts (recordFingerprint zeroFingerprint src srcSize rate hashLog)
      ↔ rate ∣ srcSize - 1) := by
  have hnb : (recordFingerprint zeroFingerprint src srcSize rate hashLog).nbEvents
      = (srcSize - 1) / rate := recordFingerprint_nbEvents _ _ _ _ _
  have hsum : sumCounts (recordFingerprint zeroFingerprint src srcSize rate hashLog)
      = (srcSize - 2) / rate + 1 := by
    unfold sumCounts
    have hev : ∀ x, (recordFingerprint zeroFingerprint src srcSize rate hashLog).events x
        = (samplePositions (srcSize - 1) rate).countP
            (fun n => hash2 (src n) (src (n + 1)) hashLog == x) :=
      fun x => recordFingerprint_events _ _ _ _ _ _ (fun y _ => rfl)
    simp only [hev]
    rw [sum_countP_eq_length _ _ _ (fun n _ => by
      calc hash2 (src n) (src (n + 1)) hashLog < 2 ^ hashLog :=
            hash2_lt _ _ _ (by omega)
        _ ≤ HASHTABLESIZE := by
            have h10 : HASHTABLESIZE = 2 ^ 10 := rfl
            rw [h10]
            exact Nat.pow_le_pow_right (by norm_num) hL)]
    rw [length_samplePositions]
    have heq : srcSize - 1 + rate - 1 = (srcSize - 2) + rate := by omega
    rw [heq, Nat.add_div_right _ (by omega)]
  refine ⟨hnb, hsum, ?_⟩
  rw [hnb, hsum]
  have ha : srcSize - 1 = (srcSize - 2) + 1 := by omega
  rw [ha, Nat.succ_div]
  by_cases hd : rate ∣ (srcSize - 2) + 1
  · simp [hd]
  · simp only [hd, if_false, iff_false]
    omega

/-- C3 witness: the amended statement at the counterexample input. -/
theorem record_totalSamples_vs_sumCounts_witness :
    2 ≤ 3 ∧ 1 ≤ 5 ∧ 10 ≤ 10 ∧
    ((recordFingerprint zeroFingerprint (fun _ => 0) 3 5 10).nbEvents = (3 - 1) / 5 ∧
      sumCounts (recordFingerprint zeroFingerprint (fun _ => 0) 3 5 10) = (3 - 2) / 5 + 1 ∧
      ((recordFingerprint zeroFingerprint (fun _ => 0) 3 5 10).nbEvents
          = sumCounts (recordFingerprint zeroFingerprint (fun _ => 0) 3 5 10)
        ↔ 5 ∣ 3 - 1)) :=
  ⟨by decide, by decide, by decide,
    record_totalSamples_vs_sumCounts (fun _ => 0) 3 5 10 (by decide) (by decide) (by decide)⟩

/-- C4 counterexample: at `srcSize = 2`, `rate = 1` the recorder sets
`totalSamples = 1`, not `⌊(srcSize−1)/rate⌋ + 1 = 2` as the claim states. -/
theorem record_totalSamples_cx :
    (recordFingerprint zeroFingerprint (fun _ => 0) 2 1 10).nbEvents = 1 ∧
    (1 : Nat) ≠ (2 - 1) / 1 + 1 := by
  refine ⟨by decide, by decide⟩

/-- C4 (amended): recording sets `totalSamples` to exactly
`⌊(srcSize−1)/rate⌋`, while the number of loop iterations over offsets
`0, rate, 2·rate, …` up to `srcSize − 2` inclusive is
`⌊(srcSize−2)/rate⌋ + 1 = ⌈(srcSize−1)/rate⌉`, which exceeds
`totalSamples` by one whenever `rate` does not divide `srcSize − 1`. -/
theorem record_totalSamples_eq_floor (src : Nat → Nat) (srcSize rate hashLog : Nat)
    (hs : 2 ≤ srcSize) (hr : 1 ≤ rate) :
    (recordFingerprint zeroFingerprint src srcSize rate hashLog).nbEvents
        = (srcSize - 1) / rate ∧
    (samplePositions (srcSize - 1) rate).length = (srcSize - 2) / rate + 1 := by
  refine ⟨recordFingerprint_nbEvents _ _ _ _ _, ?_⟩
  rw [length_samplePositions]
  have heq : srcSize - 1 + rate - 1 = (srcSize - 2) + rate := by omega
  rw [heq, Nat.add_div_right _ (by omega)]

/-- C4 witness: the amended statement at the counterexample input. -/
theorem record_totalSamples_eq_floor_witness :
    2 ≤ 2 ∧ 1 ≤ 1 ∧
    ((recordFingerprint zeroFingerprint (fun _ => 0) 2 1 10).nbEvents = (2 - 1) / 1 ∧
      (samplePositions (2 - 1) 1).length = (2 - 2) / 1 + 1) :=
  ⟨by decide, by decide,
    record_totalSamples_eq_floor (fun _ => 0) 2 1 10 (by decide) (by decide)⟩

/-- C6 (amended): whenever the driver finds a split (returns an offset
other than `blockSize`), the offset is an exact multiple of `CHUNKSIZE`
with `CHUNKSIZE ≤ offset ≤ blockSize − CHUNKSIZE`; both bounds are
attainable, so the inequalities are inclusive rather than strict. -/
theorem splitBlock_split_bounds (block : Nat → Nat) (strat : Strategy) (ws : FPStats) :
    ZSTD_splitBlock block 131072 strat ws = 131072 ∨
      (CHUNKSIZE ≤ ZSTD_splitBlock block 131072 strat ws ∧
        ZSTD_splitBlock block 131072 strat ws ≤ 131072 - CHUNKSIZE ∧
        ZSTD_splitBlock block 131072 strat ws % CHUNKSIZE = 0) := by
  have h := scanLoop_result block 131072 (samplingRate strat) (hashParams strat)
    (chunkPositions 131072) THRESHOLD_PENALTY
    ⟨recordFingerprint zeroFingerprint block CHUNKSIZE (samplingRate strat) (hashParams strat),
      zeroFingerprint⟩
  rw [ZSTD_splitBlock_eq]
  rcases h with h | h
  · left
    exact h
  · right
    obtain ⟨i, hi, hr⟩ := mem_chunkPositions_131072 h
    rw [hr]
    have hC : CHUNKSIZE = 8192 := rfl
    rw [hC]
    omega

/-- C6 counterexample: the strict version of the claim is false — on
`patternBlock` with `split_lvl1` the driver returns exactly
`CHUNKSIZE = 8192`, which is not strictly greater than `CHUNKSIZE`. -/
theorem splitBlock_split_strict_cx :
    ¬ (∀ (block : Nat → Nat) (strat : Strategy) (ws : FPStats),
        ZSTD_splitBlock block 131072 strat ws ≠ 131072 →
          CHUNKSIZE < ZSTD_splitBlock block 131072 strat ws ∧
          ZSTD_splitBlock block 131072 strat ws < 131072 - CHUNKSIZE) := by
  intro H
  have h8 := splitBlock_pattern_lvl1 ⟨zeroFingerprint, zeroFingerprint⟩
  have h := H patternBlock Strategy.split_lvl1 ⟨zeroFingerprint, zeroFingerprint⟩
    (by rw [h8]; decide)
  rw [h8] at h
  have hC : CHUNKSIZE = 8192 := rfl
  rw [hC] at h
  omega

/-- C7: within every scan, the penalties handed to the comparator form the
sequence `3, 2, 1, 0, 0, …` (truncated at the comparison that splits):
the `i`-th comparison uses `max (3 − i) 0`.  The penalty starts at
`THRESHOLD_PENALTY = 3`, decreases by exactly 1 after each accepted
comparison while positive, is 0 from the fourth comparison on, and is
never negative. -/
theorem splitBlock_penalty_trace (block : Nat → Nat) (strat : Strategy) (ws : FPStats) :
    splitBlockPenalties block 131072 strat ws
      = (List.range (splitBlockPenalties block 131072 strat ws).length).map
          (fun i : Nat => max (THRESHOLD_PENALTY - (i : Int)) 0) := by
  rw [splitBlockPenalties_eq]
  exact scanPenalties_map_range block (samplingRate strat) (hashParams strat)
    (chunkPositions 131072) THRESHOLD_PENALTY
    ⟨recordFingerprint zeroFingerprint block CHUNKSIZE (samplingRate strat) (hashParams strat),
      zeroFingerprint⟩ (by norm_num [THRESHOLD_PENALTY])

/-- C8: `ZSTD_splitBlock` is deterministic and independent of the prior
contents of the caller-supplied scratch: two calls with identical block,
size and strategy but arbitrary different workspaces return the identical
offset, because `initStats` zeroes the whole `FPStats` at the start of
each call. -/
theorem splitBlock_scratch_independent (block : Nat → Nat) (blockSize : Nat)
    (strat : Strategy) (ws1 ws2 : FPStats) :
    ZSTD_splitBlock block blockSize strat ws1 = ZSTD_splitBlock block blockSize strat ws2 := rfl

/-- C9: the cross-normalized distance is symmetric in its two fingerprint
arguments, for every `hashLog ≤ 10`. -/
theorem fpDistance_symm (A B : Fingerprint) (hashLog : Nat) (_hL : hashLog ≤ 10) :
    fpDistance A B hashLog = fpDistance B A hashLog := by
  unfold fpDistance
  apply Finset.sum_congr rfl
  intro x _
  rw [← Int.natAbs_neg]
  congr 1
  ring

/-- C9 witness: symmetry at concrete fingerprints and `hashLog = 3`. -/
theorem fpDistance_symm_witness :
    (3 : Nat) ≤ 10 ∧
    fpDistance ⟨fun b => if b = 2 then 5 else 1, 9⟩ ⟨fun b => b, 4⟩ 3
      = fpDistance ⟨fun b => b, 4⟩ ⟨fun b => if b = 2 then 5 else 1, 9⟩ 3 :=
  ⟨by decide, fpDistance_symm _ _ 3 (by decide)⟩

/-- C10 counterexample: the monotone sensitivity ordering is false — on
`patternBlock`, `split_lvl1` detects a shift (returns 8192 < blockSize)
while `split_lvl3` does not (returns blockSize). -/
theorem monotone_sensitivity_cx :
    ¬ (∀ (block : Nat → Nat) (ws1 ws2 : FPStats),
        ZSTD_splitBlock block 131072 Strategy.split_lvl1 ws1 < 131072 →
          ZSTD_splitBlock block 131072 Strategy.split_lvl3 ws2 < 131072) := by
  intro H
  have h1 := splitBlock_pattern_lvl1 ⟨zeroFingerprint, zeroFingerprint⟩
  have h3 := splitBlock_pattern_lvl3 ⟨zeroFingerprint, zeroFingerprint⟩
  have h := H patternBlock ⟨zeroFingerprint, zeroFingerprint⟩ ⟨zeroFingerprint, zeroFingerprint⟩
    (by rw [h1]; decide)
  rw [h3] at h
  omega

/-- C10 (amended): no monotone sensitivity ordering holds between the
strategies: there is a 128 KiB block (`patternBlock`, which differs from
its first chunk exactly at the `split_lvl1` sampling phase) on which
`split_lvl1` detects a shift at 8192 while `split_lvl3` scans the whole
block without detecting one. -/
theorem lvl1_detects_lvl3_does_not :
    ZSTD_splitBlock patternBlock 131072 Strategy.split_lvl1
        ⟨zeroFingerprint, zeroFingerprint⟩ = 8192 ∧
    ZSTD_splitBlock patternBlock 131072 Strategy.split_lvl3
        ⟨zeroFingerprint, zeroFingerprint⟩ = 131072 :=
  ⟨splitBlock_pattern_lvl1 _, splitBlock_pattern_lvl3 _⟩

end ZstdPreSplit
